import Mathlib

set_option maxRecDepth 8000

/-!
# Verification of the `aleister_crawley` single-origin web crawler

Shallow embedding of the crawler's core (the trace engine in
`src/site_tracer/{mod.rs,process_heap.rs,trace.rs}` and the tree renderer in
`src/link_map/transform/tree.rs`), together with proofs and refutations of the
frozen specification claims.

Modelling conventions:
* Rust `String` is Lean `String`; Rust's byte-lexicographic `Ord` on `String`
  coincides with codepoint-lexicographic order (UTF-8 preserves order), which is
  modelled by `charsLe` on `String.data`.
* `u8`/`u16`/`u64` are `Nat` with an explicit `% 2 ^ w` wherever overflow can
  occur (release-mode wrapping semantics).
* `HashMap` is modelled as an association list (`alLookup` / `alInsert`) where
  only `get`/`insert` are used, and as a partial function `String → Option Int`
  for the renderer's in-place mutated count map.
* `jiff::Timestamp` is modelled as a millisecond count (`Nat`); `Timestamp::now()`
  is a nondeterministic parameter of each transition that reads the clock.
  `Timestamp` caps at year 9999 (`jiffMaxMs`), so `checked_add(..).unwrap()`
  can panic — modelled by `processNew` returning `none`.
* `tokio` worker handles are modelled by the data the engine passes to a worker
  (URL and retry counter); worker outcomes (gatherer responses, panics) are
  nondeterministic parameters of the engine's transition relation.
-/

/-- `URLContentGetterError` from `src/link_gatherer/url_content_getter.rs`:
`Request(u16)` or `Content(String)`. The status code is a `Nat` (< 2^16 in any
real run; its width never matters below). -/
inductive URLContentGetterError where
  | Request (code : Nat)
  | Content (message : String)
deriving DecidableEq

/-- `LinkMapValue` from `src/link_map/mod.rs`. -/
inductive LinkMapValue where
  | Links (links : List String)
  | Error (err : URLContentGetterError)
deriving DecidableEq

/-- `LinkMap` from `src/link_map/mod.rs`; the `HashMap<String, LinkMapValue>`
is an association list (lookup = first binding wins; keys stay unique because
`add` replaces existing bindings). -/
structure LinkMap where
  root : String
  map : List (String × LinkMapValue)
deriving DecidableEq

/-- `HashMap::get`: first binding wins. -/
def alLookup (m : List (String × LinkMapValue)) (u : String) : Option LinkMapValue :=
  match m with
  | [] => none
  | (k, v) :: t => if k = u then some v else alLookup t u

/-- `HashMap::insert` (`LinkMap::add`): replace the binding if present. -/
def alInsert (u : String) (v : LinkMapValue) :
    List (String × LinkMapValue) → List (String × LinkMapValue)
  | [] => [(u, v)]
  | (k, w) :: t => if k = u then (u, v) :: t else (k, w) :: alInsert u v t

/-! ## Byte-lexicographic string order (Rust's `Ord for String`) -/

/-- Lexicographic `≤` on codepoint lists; on `String.data` this is exactly
Rust's byte-lexicographic order on UTF-8 strings. -/
def charsLe : List Char → List Char → Bool
  | [], _ => true
  | _ :: _, [] => false
  | a :: as, b :: bs =>
    if a.toNat < b.toNat then true
    else if b.toNat < a.toNat then false
    else charsLe as bs

/-- Rust `String` `Ord` as a (decidable) relation on Lean strings. -/
def strLe (a b : String) : Prop := charsLe a.data b.data = true

instance : DecidableRel strLe := fun _ _ => inferInstanceAs (Decidable (_ = true))

/-! ## URL scoping (`format_link_as_url`, `src/site_tracer/mod.rs:13`) -/

/-- Rust `str::starts_with` (byte prefix); `String.startsWith` does not reduce
in the kernel, so the same test is written on the codepoint lists. -/
def rsStartsWith (s pre : String) : Bool := pre.data.isPrefixOf s.data

/-- `format_link_as_url` from `src/site_tracer/mod.rs:13-24`. -/
def formatLinkAsUrl (link : String) (root : String) : String :=
  if rsStartsWith link "http" then link
  else
    let processedUrl := if rsStartsWith link "/" then link else "/" ++ link
    root ++ processedUrl

/-! ## The worker's link post-processing (`SiteTracer::worker`, `mod.rs:47-59`)

`links.sort()` is Rust's stable sort; a stable sort's output is uniquely
determined by the comparator, so it is modelled by `List.insertionSort`
(which is stable and kernel-computable). `links.dedup()` removes *consecutive*
duplicates keeping the first of each run (`rustDedup`). -/

/-- `Vec::sort` (stable, by `Ord` = byte-lexicographic order). -/
def rustSort (links : List String) : List String := List.insertionSort strLe links

/-- Tail worker for `rustDedup`: `prev` is the last element kept. -/
def rustDedupTail (prev : String) : List String → List String
  | [] => []
  | b :: t => if b = prev then rustDedupTail prev t else b :: rustDedupTail b t

/-- `Vec::dedup`: removes consecutive repeated elements, keeping the first of
each run. -/
def rustDedup : List String → List String
  | [] => []
  | a :: t => a :: rustDedupTail a t

/-- The whole success path of `SiteTracer::worker` (`mod.rs:48-59`):
sort, dedup, resolve against the root, keep only in-scope URLs. -/
def processLinks (root : String) (links : List String) : List String :=
  ((rustDedup (rustSort links)).map (fun link => formatLinkAsUrl link root)).filter
    (fun url => rsStartsWith url root)

/-! ## `Process` and `ProcessHeap` (`src/site_tracer/process_heap.rs`)

`Process::new` computes the retry delay in `u64`:
`*base_delay_ms as u64 * (2 as u64).pow(retry as u32)` — modelled with
release-mode wrapping semantics as `(base * 2 ^ retry) % 2 ^ 64`. The delay is
then added to `Timestamp::now()` with `checked_add(..).unwrap()`;
`jiff::Timestamp` caps at `9999-12-31T23:59:59.999999999Z`, `checked_add`
returns `None` past that cap, and the `unwrap` turns it into a panic —
modelled by `processNew` returning `none`.

`ProcessHeap` is `std::collections::BinaryHeap<Process>` — a *max*-heap —
with `Ord for Process` comparing `timestamp` in ascending order. It is
modelled by the standard array binary-heap algorithms (sift-up on push;
swap-last-into-root and sift-down on pop, as in the Rust standard library). -/

structure Process where
  url : String
  timestamp : Nat
  retry : Nat
deriving DecidableEq

/-- The wrapped `u64` delay computation in `Process::new`
(`process_heap.rs:17-20`): for `retry = 0` the timestamp is `now` (no delay). -/
def processDelayMs (baseDelayMs retry : Nat) : Nat :=
  if retry = 0 then 0 else (baseDelayMs * 2 ^ retry) % 2 ^ 64

/-- `jiff::Timestamp::MAX` — `9999-12-31T23:59:59.999999999Z` — in whole
milliseconds since the Unix epoch (`253402300799` is the epoch second of
`9999-12-31T23:59:59Z`). -/
def jiffMaxMs : Nat := 253402300799999

/-- `Process::new` (`process_heap.rs:13-28`) with the clock value `now` passed
explicitly (in ms). For `retry = 0` the timestamp is `Timestamp::now()`
unchanged; otherwise the wrapped `u64` delay is added with
`checked_add(..).unwrap()`, which panics — modelled as `none` — when the sum
leaves `jiff`'s timestamp range. -/
def processNew (url : String) (retry : Nat) (baseDelayMs : Nat) (now : Nat) :
    Option Process :=
  if retry = 0 then some { url := url, timestamp := now, retry := retry }
  else
    let stamp := now + processDelayMs baseDelayMs retry
    if stamp ≤ jiffMaxMs then some { url := url, timestamp := stamp, retry := retry }
    else none

/-- `l.get? i` with the heap's element order; `swap` of two positions. -/
def heapSwap (l : List Process) (i j : Nat) : List Process :=
  match l.get? i, l.get? j with
  | some a, some b => (l.set i b).set j a
  | _, _ => l

/-- Binary-heap sift-up (`BinaryHeap::push` internals); the moving element
rises while it is greater (by `Process::cmp`, i.e. by `timestamp`) than its
parent. Fuelled to stay kernel-computable; `i + 1` fuel always suffices. -/
def siftUpF : Nat → List Process → Nat → List Process
  | 0, l, _ => l
  | fuel + 1, l, i =>
    if i = 0 then l
    else
      let p := (i - 1) / 2
      match l.get? p, l.get? i with
      | some pv, some cv =>
        if pv.timestamp < cv.timestamp then siftUpF fuel (heapSwap l p i) p else l
      | _, _ => l

/-- Binary-heap sift-down from the root (`BinaryHeap::pop` internals): the
root sinks below any greater child. `l.length` fuel always suffices. -/
def siftDownF : Nat → List Process → Nat → List Process
  | 0, l, _ => l
  | fuel + 1, l, i =>
    match l.get? i with
    | none => l
    | some cv =>
      let li := 2 * i + 1
      let ri := 2 * i + 2
      let best1 : Nat × Process :=
        match l.get? li with
        | some lv => if cv.timestamp < lv.timestamp then (li, lv) else (i, cv)
        | none => (i, cv)
      let best2 : Nat × Process :=
        match l.get? ri with
        | some rv => if best1.2.timestamp < rv.timestamp then (ri, rv) else best1
        | none => best1
      if best2.1 = i then l else siftDownF fuel (heapSwap l i best2.1) best2.1

/-- `ProcessHeap::push` = `BinaryHeap::push`: append, then sift up. -/
def heapPush (l : List Process) (x : Process) : List Process :=
  siftUpF (l.length + 1) (l ++ [x]) l.length

/-- `ProcessHeap::pop` = `BinaryHeap::pop`: remove the last element; if the
heap is still non-empty swap it into the root and sift down; return the old
root — the *maximum* under `Process::cmp` (latest `timestamp`). -/
def heapPop (l : List Process) : Option (Process × List Process) :=
  match l.getLast? with
  | none => none
  | some last =>
    let rest := l.dropLast
    match rest.head? with
    | none => some (last, [])
    | some r => some (r, siftDownF rest.length (rest.set 0 last) 0)

/-- Pushing the result of `Process::new` onto the heap. A `none` from
`processNew` is a panic in the real program, which aborts the whole trace;
the engine relation instead continues with the heap unchanged. This
over-approximates the reachable states — every state an aborted run had
reached before the panic is still reached here — and is therefore sound for
the safety invariants proved below (which, moreover, do not depend on the
heap's contents). -/
def heapPushNew (l : List Process) (p : Option Process) : List Process :=
  match p with
  | some x => heapPush l x
  | none => l

/-! ## The in-flight worker collection (`Trace`, `src/site_tracer/trace.rs`)

`Trace.processors` is a `VecDeque<WorkerResult>`; `push_processor` is
`push_front` and `get_next_processor` is `pop_front` — both ends coincide, so
the collection is a stack. Handles are modelled by their dispatch index. -/

/-- `Trace::push_processor` (`trace.rs:34-36`): `VecDeque::push_front`. -/
def pushProcessor (h : Nat) (processors : List Nat) : List Nat := h :: processors

/-- `Trace::get_next_processor` (`trace.rs:38-40`): `VecDeque::pop_front`. -/
def getNextProcessor (processors : List Nat) : Option (Nat × List Nat) :=
  match processors with
  | [] => none
  | h :: t => some (h, t)

/-- One engine-side operation on the in-flight collection: dispatch a new
worker (`push_processor`) or consume one (`get_next_processor`). -/
inductive POp where
  | dispatch
  | consume
deriving DecidableEq

/-- State of a run over the in-flight collection: the handles currently in
flight, the next dispatch index, and for every consume the in-flight list at
that moment together with the returned handle. -/
structure PRun where
  inflight : List Nat
  next : Nat
  okLog : List (List Nat × Option Nat)
deriving DecidableEq

def applyPOp (s : PRun) : POp → PRun
  | .dispatch => ⟨pushProcessor s.next s.inflight, s.next + 1, s.okLog⟩
  | .consume =>
    match getNextProcessor s.inflight with
    | none => ⟨s.inflight, s.next, s.okLog ++ [(s.inflight, none)]⟩
    | some (h, t) => ⟨t, s.next, s.okLog ++ [(s.inflight, some h)]⟩

/-- An arbitrary interleaving of dispatches and consumes, from an empty
in-flight collection. -/
def runPOps (ops : List POp) : PRun := ops.foldl applyPOp ⟨[], 0, []⟩

/-- The LIFO invariant of a run: in-flight handles are strictly decreasing
(front = newest) and below the next dispatch index, and every consume so far
returned the newest in-flight handle. -/
def PRunInv (s : PRun) : Prop :=
  s.inflight.Pairwise (fun a b => b < a) ∧
  (∀ x ∈ s.inflight, x < s.next) ∧
  (∀ e ∈ s.okLog,
    (e.1 = [] ∧ e.2 = none) ∨
    (∃ h t, e.1 = h :: t ∧ e.2 = some h ∧ ∀ x ∈ e.1, x ≤ h))

/-! ## The retry chain (`SiteTracer::trace`, `mod.rs:87-104`)

The worker reports the attempt count `retry + 1` in `u8`
(`mod.rs:64`, wrapping: `reportedAttempt`). On `Error` the engine records the
result when `attempt > max_retries` and otherwise calls
`queue_to_process(url, attempt, _)` (`mod.rs:95-101`); `queue_to_process`
(`trace.rs:46-55`) silently drops the call when the passed retry is 0 and the
URL is already in `seen` — which is always the case for a retried URL. A
URL's retry state lives entirely in its `Process.retry` field, so the per-URL
attempt sequence is the chain below. -/

/-- The worker's reported attempt count `retry + 1` as a wrapping `u8`. -/
def reportedAttempt (retry : Nat) : Nat := (retry + 1) % 256

inductive ChainOutcome where
  | recorded
  | dropped
deriving DecidableEq

/-- The fate of a URL whose every fetch fails, dispatched with retry counter
`retry`: the pair of the terminal outcome (`Error` recorded, or silently
dropped by the `seen`-guard) and the total number of worker attempts made. -/
def chainRun : Nat → Nat → Nat → Option (ChainOutcome × Nat)
  | 0, _, _ => none
  | fuel + 1, maxRetries, retry =>
    let attempt := reportedAttempt retry
    if maxRetries < attempt then some (ChainOutcome.recorded, 1)
    else if attempt = 0 then some (ChainOutcome.dropped, 1)
    else
      match chainRun fuel maxRetries attempt with
      | some (o, n) => some (o, n + 1)
      | none => none

/-! ## The trace engine (`SiteTracer::trace`, `mod.rs:75-123`, and `Trace`)

The engine's mutable state and its guarded operations, as a transition
relation. Nondeterminism (which gatherer response a worker got, whether it
panicked, clock readings) is carried by the transition's parameters; the
relation over-approximates the loop's schedule (a dispatch is allowed
whenever `has_process_capacity` holds and the heap is non-empty), so every
real execution is a path of this relation. -/

structure EngineCfg where
  maxRetries : Nat
  workerPoolSize : Nat
  initialRetryDelayMs : Nat

structure EState where
  root : String
  linkMap : List (String × LinkMapValue)
  seen : List String
  heap : List Process
  processors : List (String × Nat)

/-- `Trace::queue_to_process` (`trace.rs:46-55`): a `retry = 0` enqueue is
dropped when the URL was already seen, otherwise the URL enters `seen`; the
item is pushed with the timestamp computed by `Process::new` at clock `now`
(a `Process::new` panic is over-approximated by `heapPushNew`). -/
def queueToProcess (s : EState) (url : String) (retry : Nat) (base : Nat)
    (now : Nat) : EState :=
  if retry = 0 then
    if url ∈ s.seen then s
    else { s with seen := url :: s.seen,
                  heap := heapPushNew s.heap (processNew url retry base now) }
  else { s with heap := heapPushNew s.heap (processNew url retry base now) }

/-- The `for link in links` loop of the success arm (`mod.rs:91-93`). -/
def queueLinks (s : EState) (links : List String) (base : Nat)
    (nows : String → Nat) : EState :=
  links.foldl (fun st link => queueToProcess st link 0 base (nows link)) s

/-- `Trace::add_result` (`trace.rs:57-59`). -/
def addResult (s : EState) (url : String) (v : LinkMapValue) : EState :=
  { s with linkMap := alInsert url v s.linkMap }

/-- One engine step (`mod.rs:83-117`). `links`/`errRecord`/`errRetry`/`dropped`
await the front in-flight worker and handle its result; `dispatch` is one
iteration of the refill loop, guarded by `has_process_capacity`
(`trace.rs:61-63`, with `VecDeque` capacity = `worker_pool_size`). -/
inductive EStep (cfg : EngineCfg) : EState → EState → Prop where
  | links (s : EState) (url : String) (retry : Nat) (rest : List (String × Nat))
      (raw : List String) (nows : String → Nat)
      (h : s.processors = (url, retry) :: rest) :
      EStep cfg s (queueLinks
        (addResult { s with processors := rest } url
          (LinkMapValue.Links (processLinks s.root raw)))
        (processLinks s.root raw) cfg.initialRetryDelayMs nows)
  | errRecord (s : EState) (url : String) (retry : Nat) (rest : List (String × Nat))
      (e : URLContentGetterError) (h : s.processors = (url, retry) :: rest)
      (hgt : cfg.maxRetries < reportedAttempt retry) :
      EStep cfg s (addResult { s with processors := rest } url (LinkMapValue.Error e))
  | errRetry (s : EState) (url : String) (retry : Nat) (rest : List (String × Nat))
      (h : s.processors = (url, retry) :: rest)
      (hle : reportedAttempt retry ≤ cfg.maxRetries) (now : Nat) :
      EStep cfg s (queueToProcess { s with processors := rest } url
        (reportedAttempt retry) cfg.initialRetryDelayMs now)
  | dropped (s : EState) (url : String) (retry : Nat) (rest : List (String × Nat))
      (h : s.processors = (url, retry) :: rest) :
      EStep cfg s { s with processors := rest }
  | dispatch (s : EState) (p : Process) (h2 : List Process)
      (hcap : s.processors.length < cfg.workerPoolSize)
      (hpop : heapPop s.heap = some (p, h2)) :
      EStep cfg s { s with heap := h2, processors := (p.url, p.retry) :: s.processors }

/-- The state after `trace.rs:21-28` and the seed dispatch (`mod.rs:78-79`):
root in `seen`, one worker in flight for the root. -/
def engineInit (root : String) : EState :=
  { root := root, linkMap := [], seen := [root], heap := [], processors := [(root, 0)] }

/-- All states the engine can reach during `SiteTracer::trace(root)`. -/
def EngineReachable (cfg : EngineCfg) (root : String) (s : EState) : Prop :=
  Relation.ReflTransGen (EStep cfg) (engineInit root) s

/-- The in-scope invariant: every `Links` value stored so far holds only URLs
passing `starts_with(&root)`. -/
def LinksInScope (s : EState) : Prop :=
  ∀ u l, alLookup s.linkMap u = some (LinkMapValue.Links l) →
    ∀ x ∈ l, rsStartsWith x s.root = true

/-! ## The tree renderer (`src/link_map/transform/tree.rs`)

The iterative DFS of `to_tree` (`tree.rs:87-153`). The `CountMap`
(`HashMap<String, i32>` mutated through `get_mut`) is a partial function
`String → Option Int`; the DFS `VecDeque<Item>` (used front-only) is a list;
`parents` (`HashMap<String, ()>`) is a list with membership. Each loop
iteration is `rendStep`, which also returns the emitted line in structured
form (`TLine`); `to_tree`'s output string is the concatenation of the
formatted lines. -/

structure RItem where
  url : String
  level : Int
  active : List Bool
  parents : List String
deriving DecidableEq

structure RState where
  dfs : List RItem
  visited : String → Option Int

/-- `CountMap::increment` (`tree.rs:21-30`). -/
def cmIncrement (m : String → Option Int) (u : String) : String → Option Int :=
  fun v => if v = u then (match m u with
    | some x => some (x + 1)
    | none => some 1) else m v

/-- `CountMap::decrement` (`tree.rs:31-38`): absent keys stay absent. -/
def cmDecrement (m : String → Option Int) (u : String) : String → Option Int :=
  fun v => if v = u then (match m u with
    | some x => some (x - 1)
    | none => none) else m v

/-- `CountMap::processed` (`tree.rs:40-47`): sets the count to the literal
sentinel `100` — only when the key is already present. -/
def cmProcessed (m : String → Option Int) (u : String) : String → Option Int :=
  fun v => if v = u then (match m u with
    | some _ => some 100
    | none => none) else m v

/-- `CountMap::is_queued_for_processing` (`tree.rs:49-51`):
`self.0.get(url) > Some(&0)` — `None` compares below `Some`. -/
def cmIsQueued (m : String → Option Int) (u : String) : Bool :=
  match m u with
  | some x => decide (0 < x)
  | none => false

/-- `get_indent` (`tree.rs:54-79`). -/
def getIndent (level : Int) (active : List Bool) (isTail : Bool) : String :=
  if level ≤ 0 then ""
  else
    String.join ((List.range level.toNat).map (fun k =>
      if k + 1 = level.toNat then (if isTail then "├──" else "└──")
      else
        match active.get? k with
        | some true => "│  "
        | _ => "   "))

/-- `get_next_level` (`tree.rs:81-85`). -/
def getNextLevel (dfs : List RItem) : Int :=
  match dfs with
  | [] => -1
  | it :: _ => it.level

/-- The error annotation (`tree.rs:136-145`): only when no cycle marker was
set, and only for URLs whose map entry is an `Error`. -/
def errText (lm : LinkMap) (marker : String) (u : String) : String :=
  if marker = "" then
    match alLookup lm.map u with
    | some (LinkMapValue.Error (URLContentGetterError.Request code)) =>
      " - 😵 " ++ toString code
    | some (LinkMapValue.Error (URLContentGetterError.Content text)) =>
      " - 😵 \"" ++ text ++ "\""
    | _ => ""
  else ""

/-- One rendered line in structured form: its indent, URL, level, marker
(`""`, `" ⟳"` or `" 🔗"`), error annotation, and the children pushed while
emitting it (empty unless the node was expanded with a `Links` entry). -/
structure TLine where
  indent : String
  url : String
  level : Int
  marker : String
  error : String
  children : List String
deriving DecidableEq

/-- One iteration of the `while let Some(Item {..}) = dfs.pop_front()` loop
(`tree.rs:98-151`): pop, decrement, choose the disposition (`⟳` for
ancestors, `🔗` when still queued, otherwise mark processed and push the
`Links` children in reverse), and emit the line. -/
def rendStep (lm : LinkMap) (s : RState) : Option (TLine × RState) :=
  match s.dfs with
  | [] => none
  | it :: rest =>
    let visited1 := cmDecrement s.visited it.url
    let nextLevel := getNextLevel rest
    let isTail := decide (it.level ≤ nextLevel)
    let newActive := it.active ++ (if 0 < it.level then [decide (it.level = nextLevel)] else [])
    let indent := getIndent it.level it.active isTail
    if it.url ∈ it.parents then
      some (⟨indent, it.url, it.level, " ⟳", errText lm " ⟳" it.url, []⟩,
        ⟨rest, visited1⟩)
    else if cmIsQueued visited1 it.url then
      some (⟨indent, it.url, it.level, " 🔗", errText lm " 🔗" it.url, []⟩,
        ⟨rest, visited1⟩)
    else
      let visited2 := cmProcessed visited1 it.url
      match alLookup lm.map it.url with
      | some (LinkMapValue.Links links) =>
        let newParents := it.parents ++ [it.url]
        let pushed := links.reverse.foldl
          (fun (acc : List RItem × (String → Option Int)) link =>
            (⟨link, it.level + 1, newActive, newParents⟩ :: acc.1,
             cmIncrement acc.2 link))
          (rest, visited2)
        some (⟨indent, it.url, it.level, "", errText lm "" it.url, links⟩,
          ⟨pushed.1, pushed.2⟩)
      | _ =>
        some (⟨indent, it.url, it.level, "", errText lm "" it.url, []⟩,
          ⟨rest, visited2⟩)

/-- Running the renderer loop with `fuel` iterations; `some lines` exactly
when the stack empties within the fuel (the Rust loop runs to completion). -/
def rendRun (fuel : Nat) (lm : LinkMap) (s : RState) : Option (List TLine) :=
  match fuel with
  | 0 =>
    match s.dfs with
    | [] => some []
    | _ => none
  | fuel + 1 =>
    match rendStep lm s with
    | none => some []
    | some (line, s2) => (rendRun fuel lm s2).map (fun ls => line :: ls)

/-- The initial stack of `to_tree` (`tree.rs:90-96`): the root at level 0,
no active columns, no parents, empty count map. -/
def rendInit (lm : LinkMap) : RState :=
  ⟨[⟨lm.root, 0, [], []⟩], fun _ => none⟩

/-- `to_tree`'s output: each line is `indent ++ url ++ marker ++ error ++ "\n"`
(`tree.rs:147`). -/
def toTreeStr (fuel : Nat) (lm : LinkMap) : Option String :=
  (rendRun fuel lm (rendInit lm)).map
    (fun lines => String.join (lines.map
      (fun L => L.indent ++ L.url ++ L.marker ++ L.error ++ "\n")))

/-! ## C9: single-expansion discipline of the renderer -/

/-- Multiplicity of a URL among the frames of the DFS stack. -/
def multU (u : String) (st : List RItem) : Nat := st.countP (fun it => it.url == u)

/-- Occurrences of a URL in a string list. -/
def occS (u : String) (ls : List String) : Nat := ls.countP (fun l => l == u)

/-- How many emitted lines expanded `u` (visited it through the
`processed`/push branch, i.e. with an empty marker). -/
def countExpanded (lines : List TLine) (u : String) : Nat :=
  lines.countP (fun L => L.url == u && L.marker == "")

/-- Adding `n` increments to an optional counter (`cmIncrement` iterated). -/
def addOcc (o : Option Int) (n : Nat) : Option Int :=
  if n = 0 then o else some (o.getD 0 + n)

/-- The renderer's count-map invariant, parameterised by the ghost set `E` of
URLs already expanded (visited through the `processed` branch). For non-root
URLs outside `E` the count equals the number of pending stack frames; for
non-root URLs in `E` it is `100` (the `processed` sentinel) plus the pending
frames; the root either sits alone in the initial stack or occurs in every
frame's `parents`. -/
def cInv (lm : LinkMap) (s : RState) (E : String → Prop) : Prop :=
  (∀ u, E u → ¬ u = lm.root → s.visited u = some (100 + (multU u s.dfs : Int))) ∧
  (∀ u, ¬ E u → ¬ u = lm.root →
    (s.visited u = some ((multU u s.dfs : Int)) ∨
     (s.visited u = none ∧ multU u s.dfs = 0))) ∧
  ((s.dfs = [⟨lm.root, 0, [], []⟩] ∧ s.visited = (fun _ => none) ∧ ∀ u, ¬ E u) ∨
   (∀ it ∈ s.dfs, lm.root ∈ it.parents))

/-- A two-node map used to witness `c9_single_expansion`. -/
def c9WitnessMap : LinkMap := ⟨"r", [("r", LinkMapValue.Links ["s"])]⟩

/-- The link graph refuting the first/shallowest part of C9:
`r → [a, b, k]; a → [b, x]; x → [u]; u → [w]; b → [c]; k → [u]`. -/
def c9CexMap : LinkMap :=
  ⟨"r",
   [("r", LinkMapValue.Links ["a", "b", "k"]),
    ("a", LinkMapValue.Links ["b", "x"]),
    ("x", LinkMapValue.Links ["u"]),
    ("u", LinkMapValue.Links ["w"]),
    ("b", LinkMapValue.Links ["c"]),
    ("k", LinkMapValue.Links ["u"])]⟩

theorem alLookup_alInsert (u : String) (v : LinkMapValue)
    (m : List (String × LinkMapValue)) (x : String) :
    alLookup (alInsert u v m) x = if u = x then some v else alLookup m x := by
  induction m with
  | nil =>
    by_cases h : u = x <;> simp [alInsert, alLookup, h]
  | cons p t ih =>
    obtain ⟨k, w⟩ := p
    by_cases hk : k = u
    · subst hk
      by_cases h : k = x <;> simp [alInsert, alLookup, h]
    · by_cases h : k = x
      · subst h
        have : ¬ u = k := fun hu => hk hu.symm
        simp [alInsert, alLookup, hk, this]
      · simp [alInsert, alLookup, hk, h, ih]

theorem Char.toNat_eq_of_not_lt {a b : Char} (h1 : ¬ a.toNat < b.toNat)
    (h2 : ¬ b.toNat < a.toNat) : a = b := by
  apply Char.ext
  exact UInt32.ext_iff.mpr (Nat.le_antisymm (Nat.le_of_not_lt h2) (Nat.le_of_not_lt h1))

theorem charsLe_total (a b : List Char) : charsLe a b = true ∨ charsLe b a = true := by
  induction a generalizing b with
  | nil => left; rfl
  | cons x xs ih =>
    cases b with
    | nil => right; rfl
    | cons y ys =>
      by_cases hxy : x.toNat < y.toNat
      · left; simp [charsLe, hxy]
      · by_cases hyx : y.toNat < x.toNat
        · right; simp [charsLe, hyx]
        · rcases ih ys with h | h
          · left; simpa [charsLe, hxy, hyx] using h
          · right; simpa [charsLe, hxy, hyx] using h

theorem charsLe_trans {a b c : List Char} (hab : charsLe a b = true)
    (hbc : charsLe b c = true) : charsLe a c = true := by
  induction a generalizing b c with
  | nil => rfl
  | cons x xs ih =>
    cases b with
    | nil => simp [charsLe] at hab
    | cons y ys =>
      cases c with
      | nil => simp [charsLe] at hbc
      | cons z zs =>
        by_cases hxy : x.toNat < y.toNat
        · by_cases hyz : y.toNat < z.toNat
          · simp [charsLe, hxy.trans hyz]
          · by_cases hzy : z.toNat < y.toNat
            · simp [charsLe, hyz, hzy] at hbc
            · cases Char.toNat_eq_of_not_lt hyz hzy
              simp [charsLe, hxy]
        · by_cases hyx : y.toNat < x.toNat
          · simp [charsLe, hxy, hyx] at hab
          · cases Char.toNat_eq_of_not_lt hxy hyx
            by_cases hyz : x.toNat < z.toNat
            · simp [charsLe, hyz]
            · by_cases hzy : z.toNat < x.toNat
              · simp [charsLe, hyz, hzy] at hbc
              · simp only [charsLe, if_neg hxy, if_neg hyx] at hab
                simp only [charsLe, if_neg hyz, if_neg hzy] at hbc ⊢
                exact ih hab hbc

theorem charsLe_antisymm {a b : List Char} (hab : charsLe a b = true)
    (hba : charsLe b a = true) : a = b := by
  induction a generalizing b with
  | nil =>
    cases b with
    | nil => rfl
    | cons y ys => simp [charsLe] at hba
  | cons x xs ih =>
    cases b with
    | nil => simp [charsLe] at hab
    | cons y ys =>
      by_cases hxy : x.toNat < y.toNat
      · simp [charsLe, hxy, Nat.lt_asymm hxy] at hba
      · by_cases hyx : y.toNat < x.toNat
        · simp [charsLe, hxy, hyx] at hab
        · cases Char.toNat_eq_of_not_lt hxy hyx
          simp only [charsLe, if_neg hxy, if_neg hyx] at hab hba
          rw [ih hab hba]

instance : IsTotal String strLe := ⟨fun a b => charsLe_total a.data b.data⟩

instance : IsTrans String strLe := ⟨fun _ _ _ hab hbc => charsLe_trans hab hbc⟩

theorem strLe_antisymm {a b : String} (hab : strLe a b) (hba : strLe b a) : a = b :=
  String.ext (charsLe_antisymm hab hba)

theorem rustDedupTail_sublist (l : List String) :
    ∀ prev, (rustDedupTail prev l).Sublist l := by
  induction l with
  | nil => intro prev; simp [rustDedupTail]
  | cons b t ih =>
    intro prev
    by_cases h : b = prev
    · simpa [rustDedupTail, h] using (ih prev).trans (List.sublist_cons_self b t)
    · simpa [rustDedupTail, h] using (ih b).cons₂ b

theorem rustDedup_sublist (l : List String) : (rustDedup l).Sublist l := by
  cases l with
  | nil => simp [rustDedup]
  | cons a t => simpa [rustDedup] using (rustDedupTail_sublist t a).cons₂ a

theorem rustDedupTail_nodup (l : List String) :
    ∀ prev, l.Sorted strLe → (∀ x ∈ l, strLe prev x) →
      prev ∉ rustDedupTail prev l ∧ (rustDedupTail prev l).Nodup := by
  induction l with
  | nil => intro prev _ _; simp [rustDedupTail]
  | cons b t ih =>
    intro prev hs hp
    rw [List.sorted_cons] at hs
    obtain ⟨hb, ht⟩ := hs
    by_cases h : b = prev
    · subst h
      simpa [rustDedupTail] using ih b ht hb
    · obtain ⟨hmem, hnd⟩ := ih b ht hb
      simp only [rustDedupTail, if_neg h]
      refine ⟨?_, ?_⟩
      · intro hcon
        rcases List.mem_cons.mp hcon with rfl | hcon
        · exact h rfl
        · have hin : prev ∈ t := (rustDedupTail_sublist t b).mem hcon
          exact h (strLe_antisymm (hb prev hin) (hp b (by simp)))
      · exact List.nodup_cons.mpr ⟨hmem, hnd⟩

theorem rustDedup_sorted {l : List String} (h : l.Sorted strLe) :
    (rustDedup l).Sorted strLe :=
  List.Pairwise.sublist (rustDedup_sublist l) h

theorem rustDedup_nodup {l : List String} (h : l.Sorted strLe) :
    (rustDedup l).Nodup := by
  cases l with
  | nil => simp [rustDedup]
  | cons a t =>
    rw [List.sorted_cons] at h
    obtain ⟨ha, ht⟩ := h
    obtain ⟨hmem, hnd⟩ := rustDedupTail_nodup t a ht ha
    simpa [rustDedup] using List.nodup_cons.mpr ⟨hmem, hnd⟩

theorem rustSort_sorted (l : List String) : (rustSort l).Sorted strLe :=
  List.sorted_insertionSort strLe l

theorem mem_rustSort {l : List String} {x : String} : x ∈ rustSort l ↔ x ∈ l :=
  (List.perm_insertionSort strLe l).mem_iff

/-- Every element the worker publishes passes the `starts_with(&root)` filter. -/
theorem processLinks_in_scope (root : String) (links : List String) :
    ∀ x ∈ processLinks root links, rsStartsWith x root = true := by
  intro x hx
  exact (List.mem_filter.mp hx).2

/-- C7: `format_link_as_url` resolves a raw href by exactly the three ordered
rules: an href starting with the literal `http` is returned unchanged;
otherwise one starting with `/` yields `root ++ href`; otherwise
`root ++ "/" ++ href`. -/
theorem c7_format_link_rules (link root : String) :
    formatLinkAsUrl link root =
      if rsStartsWith link "http" then link
      else if rsStartsWith link "/" then root ++ link
      else root ++ "/" ++ link := by
  unfold formatLinkAsUrl
  by_cases h1 : rsStartsWith link "http"
  · simp [h1]
  · by_cases h2 : rsStartsWith link "/"
    · simp [h1, h2]
    · simp [h1, h2, String.append_assoc]

/-- C5 counterexample: with root `http://x` and raw hrefs `["a", "/a", "/b"]`
the worker publishes `["http://x/a", "http://x/b", "http://x/a"]`, which is
neither sorted nor duplicate-free: the sort/dedup run on the *raw* hrefs before
URL resolution, and resolution can reorder and re-introduce duplicates. -/
theorem c5_links_unsorted_dup_cex :
    processLinks "http://x" ["a", "/a", "/b"] =
      ["http://x/a", "http://x/b", "http://x/a"] ∧
    ¬ (processLinks "http://x" ["a", "/a", "/b"]).Sorted strLe ∧
    ¬ (processLinks "http://x" ["a", "/a", "/b"]).Nodup := by
  refine ⟨by decide, by decide, by decide⟩

/-- C5 (amended): the worker sorts and fully deduplicates the *raw* href list
(the stage `links.sort(); links.dedup()` produces a sorted, duplicate-free
list); the published `Links(l)` is that list mapped through the scoper and
filtered to the in-scope set, and it is itself sorted and duplicate-free
whenever every raw href already begins with `http` (so that scoping is the
identity). -/
theorem c5_links_sorted_amended (root : String) (links : List String) :
    (rustDedup (rustSort links)).Sorted strLe ∧ (rustDedup (rustSort links)).Nodup ∧
    ((∀ l ∈ links, rsStartsWith l "http" = true) →
      (processLinks root links).Sorted strLe ∧ (processLinks root links).Nodup) := by
  have hs := rustDedup_sorted (rustSort_sorted links)
  have hn := rustDedup_nodup (rustSort_sorted links)
  refine ⟨hs, hn, ?_⟩
  intro hall
  have hid : (rustDedup (rustSort links)).map (fun link => formatLinkAsUrl link root) =
      rustDedup (rustSort links) := by
    have hpt : ∀ x ∈ rustDedup (rustSort links),
        (fun link => formatLinkAsUrl link root) x = id x := by
      intro x hx
      have hx' : x ∈ links := mem_rustSort.mp ((rustDedup_sublist _).mem hx)
      simp [formatLinkAsUrl, hall x hx']
    rw [List.map_congr_left hpt, List.map_id]
  unfold processLinks
  rw [hid]
  exact ⟨List.Pairwise.sublist (List.filter_sublist _) hs, hn.filter _⟩

/-- Witness for `c5_links_sorted_amended` at a concrete input where every raw
href already begins with `http`. -/
theorem c5_links_sorted_amended_witness :
    (∀ l ∈ ["http://x/b", "http://x/a", "http://x/a"], rsStartsWith l "http" = true) ∧
    ((processLinks "http://x" ["http://x/b", "http://x/a", "http://x/a"]).Sorted strLe ∧
     (processLinks "http://x" ["http://x/b", "http://x/a", "http://x/a"]).Nodup) :=
  ⟨by decide,
   (c5_links_sorted_amended "http://x" ["http://x/b", "http://x/a", "http://x/a"]).2.2
     (by decide)⟩

/-- C3: evaluating `ProcessHeap` at a two-element queue. After pushing items
with `eligible_at` 1 and then 2, `pop` returns the item with `eligible_at` 2
— the *latest*-eligible — while the item with `eligible_at` 1 stays queued.
`BinaryHeap` is a max-heap and `Ord for Process` is ascending on `timestamp`
(`process_heap.rs:50-54`), so the popped timestamp is the maximum, not the
minimum the claim (and the spec's "min-heap … earliest first") requires. -/
theorem c3_heap_pop_latest_eval :
    heapPop (heapPush (heapPush [] ⟨"a", 1, 0⟩) ⟨"b", 2, 0⟩) =
      some (⟨"b", 2, 0⟩, [⟨"a", 1, 0⟩]) ∧ ¬ (2 : Nat) ≤ 1 := by
  exact ⟨by decide, by decide⟩

/-- C4 counterexample: dispatch handle 0, then handle 1, then consume:
`get_next_processor` returns handle 1 — the most recently dispatched — while
handle 0, the earliest dispatched, is still in flight. The claim's FIFO
reading would require handle 0. -/
theorem c4_fifo_cex :
    (runPOps [POp.dispatch, POp.dispatch, POp.consume]).okLog = [([1, 0], some 1)] ∧
    (1 : Nat) ≠ 0 :=
  ⟨by decide, by decide⟩

theorem applyPOp_inv {s : PRun} (hs : PRunInv s) (op : POp) : PRunInv (applyPOp s op) := by
  obtain ⟨hpw, hlt, hlog⟩ := hs
  cases op with
  | dispatch =>
    refine ⟨List.pairwise_cons.mpr ⟨hlt, hpw⟩, ?_, hlog⟩
    intro x hx
    rcases List.mem_cons.mp hx with rfl | hx
    · exact Nat.lt_succ_self _
    · exact (hlt x hx).trans (Nat.lt_succ_self _)
  | consume =>
    cases hin : s.inflight with
    | nil =>
      refine ⟨by simp [applyPOp, getNextProcessor, hin, hpw] , ?_, ?_⟩
      · intro x hx
        simp [applyPOp, getNextProcessor, hin] at hx
      · intro e he
        simp only [applyPOp, getNextProcessor, hin, List.mem_append] at he
        rcases he with he | he
        · exact hlog e he
        · left
          simp only [List.mem_singleton] at he
          subst he
          exact ⟨rfl, rfl⟩
    | cons h t =>
      rw [hin] at hpw hlt
      simp only [applyPOp, getNextProcessor, hin]
      refine ⟨(List.pairwise_cons.mp hpw).2, ?_, ?_⟩
      · intro x hx
        exact hlt x (List.mem_cons_of_mem h hx)
      · intro e he
        simp only [List.mem_append] at he
        rcases he with he | he
        · exact hlog e he
        · right
          simp only [List.mem_singleton] at he
          subst he
          refine ⟨h, t, rfl, rfl, ?_⟩
          intro x hx
          rcases List.mem_cons.mp hx with rfl | hx
          · exact Nat.le_refl x
          · exact Nat.le_of_lt ((List.pairwise_cons.mp hpw).1 x hx)

theorem runPOps_inv (ops : List POp) : PRunInv (runPOps ops) := by
  suffices h : ∀ s, PRunInv s → PRunInv (ops.foldl applyPOp s) by
    refine h _ ?_
    refine ⟨List.Pairwise.nil, ?_, ?_⟩ <;> intro x hx <;> simp at hx
  induction ops with
  | nil => intro s hs; exact hs
  | cons op rest ih => intro s hs; exact ih _ (applyPOp_inv hs op)

/-- C4 (amended): the in-flight collection is consumed in LIFO dispatch order:
for every interleaving of `push_processor` and `get_next_processor` calls,
every `get_next_processor` returns the handle that was dispatched *last*
(the maximum dispatch index) among those still in flight — `push_processor`
pushes to the front of the `VecDeque` and `get_next_processor` pops that same
front. -/
theorem c4_inflight_lifo (ops : List POp) :
    ∀ e ∈ (runPOps ops).okLog,
      (e.1 = [] ∧ e.2 = none) ∨
      (∃ h t, e.1 = h :: t ∧ e.2 = some h ∧ ∀ x ∈ e.1, x ≤ h) :=
  (runPOps_inv ops).2.2

/-- Witness for `c4_inflight_lifo`: dispatch twice, consume once; the consume
returned handle 1, the maximum of the in-flight handles `[1, 0]`. -/
theorem c4_inflight_lifo_witness :
    ([1, 0], some 1) ∈ (runPOps [POp.dispatch, POp.dispatch, POp.consume]).okLog ∧
    (([1, 0], (some 1 : Option Nat)).1 = [] ∧ ([1, 0], (some 1 : Option Nat)).2 = none ∨
     ∃ h t, ([1, 0], (some 1 : Option Nat)).1 = h :: t ∧
       ([1, 0], (some 1 : Option Nat)).2 = some h ∧
       ∀ x ∈ ([1, 0], (some 1 : Option Nat)).1, x ≤ h) :=
  ⟨by decide,
   c4_inflight_lifo [POp.dispatch, POp.dispatch, POp.consume] ([1, 0], some 1) (by decide)⟩

/-- C2 counterexample: with `max_retries = 255` (a legal `u8` configuration)
the 256th worker attempt reports count `(255 + 1) % 256 = 0 ≤ max_retries`,
yet the URL is neither recorded nor rescheduled: `queue_to_process` with
retry 0 hits the `seen`-guard and silently drops it, so the chain terminates
`dropped` after 256 attempts — contradicting "any attempt with count at most
max_retries reschedules the URL instead of recording". -/
theorem c2_u8_wrap_cex :
    chainRun 300 255 0 = some (ChainOutcome.dropped, 256) ∧
    reportedAttempt 255 = 0 ∧ (0 : Nat) ≤ 255 :=
  ⟨by decide, by decide, by decide⟩

theorem chainRun_recorded {maxRetries : Nat} (hm : maxRetries ≤ 254) :
    ∀ fuel retry, retry ≤ maxRetries → maxRetries + 1 - retry ≤ fuel →
      chainRun fuel maxRetries retry =
        some (ChainOutcome.recorded, maxRetries + 1 - retry) := by
  intro fuel
  induction fuel with
  | zero => intro retry hr hf; omega
  | succ fuel ih =>
    intro retry hr hf
    have hmod : reportedAttempt retry = retry + 1 := by
      unfold reportedAttempt
      exact Nat.mod_eq_of_lt (by omega)
    by_cases hlast : maxRetries < retry + 1
    · have : retry = maxRetries := by omega
      subst this
      simp only [chainRun, hmod, if_pos hlast]
      congr 2
      omega
    · have h1 : retry + 1 ≤ maxRetries := by omega
      have h2 : maxRetries + 1 - (retry + 1) ≤ fuel := by omega
      simp only [chainRun, hmod, if_neg hlast, if_neg (by omega : ¬ retry + 1 = 0),
        ih (retry + 1) h1 h2]
      congr 1
      congr 1
      omega

/-- C2 (amended): provided `max_retries ≤ 254`, every URL whose final entry is
`Error(e)` got exactly `max_retries + 1` worker attempts: attempts with
reported count greater than `max_retries` record the error, attempts with a
smaller-or-equal count reschedule. (The exception `max_retries = 255` is the
`c2_u8_wrap_cex` counterexample: the `u8` attempt counter wraps to 0 on the
256th report and the URL is silently dropped, neither recorded nor
rescheduled.) -/
theorem c2_retry_attempts_exact {maxRetries : Nat} (hm : maxRetries ≤ 254)
    (fuel : Nat) (hf : maxRetries + 1 ≤ fuel) :
    chainRun fuel maxRetries 0 = some (ChainOutcome.recorded, maxRetries + 1) := by
  have h := chainRun_recorded hm fuel 0 (Nat.zero_le _) (by omega)
  simpa using h

/-- Witness for `c2_retry_attempts_exact` at `max_retries = 3`, the repo's own
default configuration: the error is recorded after exactly 4 attempts. -/
theorem c2_retry_attempts_exact_witness :
    (3 : Nat) ≤ 254 ∧ (3 : Nat) + 1 ≤ 10 ∧
    chainRun 10 3 0 = some (ChainOutcome.recorded, 4) :=
  ⟨by decide, by decide, c2_retry_attempts_exact (by decide) 10 (by decide)⟩

/-- C8 counterexample, two failure modes of the exactness claim. First, the
`checked_add(..).unwrap()` panic: with the repo's default
`initial_retry_delay_ms = 250` and retry `r = 40` — a delay of
`250 · 2^40 ≈ 2.7 · 10^14` ms, well inside `u64` — the sum exceeds `jiff`'s
year-9999 timestamp cap, `checked_add` returns `None`, and the `unwrap`
panics: no `ProcessItem` with the claimed `eligible_at` is created at all.
Second, the `u64` wrap: for `r = 64` and `initial_retry_delay_ms = 1` the
product `1 * 2^64` wraps to 0 (in a debug build the `pow` panics), so the
item is created with `eligible_at = now`, not `now + 1 · 2^64`. -/
theorem c8_delay_overflow_cex :
    (processNew "u" 40 250 0 = none ∧
      250 * 2 ^ 40 < 2 ^ 64 ∧ jiffMaxMs < 0 + 250 * 2 ^ 40) ∧
    (processNew "u" 64 1 0 = some ⟨"u", 0, 64⟩ ∧ (0 : Nat) + 1 * 2 ^ 64 ≠ 0) := by
  refine ⟨⟨by decide, by decide, by decide⟩, ⟨by decide, ?_⟩⟩
  intro h
  simp at h

/-- C8 (amended): a `ProcessItem` created with retry `r = 0` is eligible at
`now` (zero delay). One created with `r ≥ 1` is created, with `eligible_at`
exactly `now + initial_retry_delay_ms · 2^r` milliseconds, *provided* the
product fits in `u64` (`initial_retry_delay_ms · 2^r < 2^64`, else the `u64`
computation wraps) *and* the sum stays within `jiff`'s year-9999 timestamp
range (`now + initial_retry_delay_ms · 2^r ≤ jiffMaxMs`, else
`checked_add(..).unwrap()` panics and no item is created). -/
theorem c8_delay_exact (url : String) (r base now : Nat) :
    (r = 0 → processNew url r base now = some ⟨url, now, r⟩) ∧
    (1 ≤ r → base * 2 ^ r < 2 ^ 64 → now + base * 2 ^ r ≤ jiffMaxMs →
      processNew url r base now = some ⟨url, now + base * 2 ^ r, r⟩) := by
  constructor
  · intro h
    subst h
    simp [processNew]
  · intro h1 h2 h3
    simp only [processNew, processDelayMs, if_neg (by omega : ¬ r = 0)]
    rw [Nat.mod_eq_of_lt h2]
    rw [if_pos h3]

/-- Witness for `c8_delay_exact`, applying it at `r = 0` and at `r = 2` with
`initial_retry_delay_ms = 250` (the repo's default): delays 0 and 1000 ms,
both far inside the timestamp range. -/
theorem c8_delay_exact_witness :
    ((0 : Nat) = 0 ∧ processNew "u" 0 250 7 = some ⟨"u", 7, 0⟩) ∧
    ((1 : Nat) ≤ 2 ∧ 250 * 2 ^ 2 < 2 ^ 64 ∧ 7 + 250 * 2 ^ 2 ≤ jiffMaxMs ∧
      processNew "u" 2 250 7 = some ⟨"u", 7 + 250 * 2 ^ 2, 2⟩) :=
  ⟨⟨rfl, (c8_delay_exact "u" 0 250 7).1 rfl⟩,
   ⟨by decide, by decide, by decide,
    (c8_delay_exact "u" 2 250 7).2 (by decide) (by decide) (by decide)⟩⟩

theorem queueToProcess_root (s : EState) (url : String) (retry base now : Nat) :
    (queueToProcess s url retry base now).root = s.root := by
  unfold queueToProcess
  split <;> [skip; rfl]
  split <;> rfl

theorem queueToProcess_linkMap (s : EState) (url : String) (retry base now : Nat) :
    (queueToProcess s url retry base now).linkMap = s.linkMap := by
  unfold queueToProcess
  split <;> [skip; rfl]
  split <;> rfl

theorem queueToProcess_processors (s : EState) (url : String) (retry base now : Nat) :
    (queueToProcess s url retry base now).processors = s.processors := by
  unfold queueToProcess
  split <;> [skip; rfl]
  split <;> rfl

theorem queueLinks_root (links : List String) (s : EState) (base : Nat)
    (nows : String → Nat) : (queueLinks s links base nows).root = s.root := by
  induction links generalizing s with
  | nil => rfl
  | cons l t ih => rw [queueLinks, List.foldl_cons]; exact (ih _).trans (queueToProcess_root ..)

theorem queueLinks_linkMap (links : List String) (s : EState) (base : Nat)
    (nows : String → Nat) : (queueLinks s links base nows).linkMap = s.linkMap := by
  induction links generalizing s with
  | nil => rfl
  | cons l t ih =>
    rw [queueLinks, List.foldl_cons]
    exact (ih _).trans (queueToProcess_linkMap ..)

theorem queueLinks_processors (links : List String) (s : EState) (base : Nat)
    (nows : String → Nat) : (queueLinks s links base nows).processors = s.processors := by
  induction links generalizing s with
  | nil => rfl
  | cons l t ih =>
    rw [queueLinks, List.foldl_cons]
    exact (ih _).trans (queueToProcess_processors ..)

theorem estep_root {cfg : EngineCfg} {s t : EState} (h : EStep cfg s t) :
    t.root = s.root := by
  cases h with
  | links url retry rest raw nows h => exact (queueLinks_root ..).trans rfl
  | errRecord url retry rest e h hgt => rfl
  | errRetry url retry rest h hle now => exact (queueToProcess_root ..).trans rfl
  | dropped url retry rest h => rfl
  | dispatch p h2 hcap hpop => rfl

theorem engineReachable_root {cfg : EngineCfg} {root : String} {s : EState}
    (h : EngineReachable cfg root s) : s.root = root := by
  induction h with
  | refl => rfl
  | tail _ hstep ih => exact (estep_root hstep).trans ih

theorem estep_linksInScope {cfg : EngineCfg} {s t : EState} (hstep : EStep cfg s t)
    (hs : LinksInScope s) : LinksInScope t := by
  cases hstep with
  | links url retry rest raw nows h =>
    intro u l hu x hx
    rw [queueLinks_linkMap] at hu
    simp only [addResult] at hu
    rw [alLookup_alInsert] at hu
    rw [queueLinks_root]
    by_cases hequ : url = u
    · rw [if_pos hequ] at hu
      have hl : l = processLinks s.root raw := by
        injection hu with hu
        injection hu with hu
        exact hu.symm
      subst hl
      exact processLinks_in_scope s.root raw x hx
    · rw [if_neg hequ] at hu
      exact hs u l hu x hx
  | errRecord url retry rest e h hgt =>
    intro u l hu x hx
    simp only [addResult] at hu
    rw [alLookup_alInsert] at hu
    by_cases hequ : url = u
    · rw [if_pos hequ] at hu
      cases hu
    · rw [if_neg hequ] at hu
      exact hs u l hu x hx
  | errRetry url retry rest h hle now =>
    intro u l hu x hx
    rw [queueToProcess_linkMap] at hu
    rw [queueToProcess_root]
    exact hs u l hu x hx
  | dropped url retry rest h =>
    intro u l hu x hx
    exact hs u l hu x hx
  | dispatch p h2 hcap hpop =>
    intro u l hu x hx
    exact hs u l hu x hx

/-- C1: in every state the engine can reach while tracing `root` — in
particular in the final `LinkMap` returned by `SiteTracer::trace` — every URL
stored inside a `Links(l)` value begins with `root` as a byte prefix: the
worker keeps exactly the resolved URLs passing `starts_with(&root)`. -/
theorem c1_trace_links_in_scope (cfg : EngineCfg) (root : String) (s : EState)
    (h : EngineReachable cfg root s) (u : String) (l : List String)
    (hu : alLookup s.linkMap u = some (LinkMapValue.Links l)) :
    ∀ x ∈ l, rsStartsWith x root = true := by
  have hscope : LinksInScope s := by
    clear hu
    induction h with
    | refl =>
      intro u l hu
      cases hu
    | tail _ hstep ih => exact estep_linksInScope hstep ih
  intro x hx
  have := hscope u l hu x hx
  rwa [engineReachable_root h] at this

/-- Witness for `c1_trace_links_in_scope`: one `links` step from the initial
state of a trace of `http://x`, whose worker resolved the raw href `a`; the
recorded value is `Links ["http://x/a"]` and `"http://x/a"` starts with the
root. -/
theorem c1_trace_links_in_scope_witness :
    ∃ s, EngineReachable ⟨3, 2, 250⟩ "http://x" s ∧
      alLookup s.linkMap "http://x" = some (LinkMapValue.Links ["http://x/a"]) ∧
      rsStartsWith "http://x/a" "http://x" = true := by
  refine ⟨queueLinks
      (addResult { engineInit "http://x" with processors := [] } "http://x"
        (LinkMapValue.Links (processLinks "http://x" ["a"])))
      (processLinks "http://x" ["a"]) 250 (fun _ => 0), ?_, ?_, ?_⟩
  · exact Relation.ReflTransGen.single
      (EStep.links (engineInit "http://x") "http://x" 0 [] ["a"] (fun _ => 0) rfl)
  · decide
  · exact c1_trace_links_in_scope ⟨3, 2, 250⟩ "http://x" _
      (Relation.ReflTransGen.single
        (EStep.links (engineInit "http://x") "http://x" 0 [] ["a"] (fun _ => 0) rfl))
      "http://x" ["http://x/a"] (by decide) "http://x/a" (by decide)

/-- C6 counterexample: with `worker_pool_size = 0` the claim fails: `trace`
dispatches the initial root worker unconditionally (`mod.rs:79`), so the
(reachable) initial state already holds 1 in-flight handle > 0. -/
theorem c6_pool_zero_cex :
    EngineReachable ⟨3, 0, 250⟩ "http://x" (engineInit "http://x") ∧
    ¬ (engineInit "http://x").processors.length ≤ (0 : Nat) :=
  ⟨Relation.ReflTransGen.refl, by decide⟩

theorem estep_processors_bound {cfg : EngineCfg} {s t : EState} (hstep : EStep cfg s t)
    (hs : s.processors.length ≤ cfg.workerPoolSize) :
    t.processors.length ≤ cfg.workerPoolSize := by
  cases hstep with
  | links url retry rest raw nows h =>
    rw [queueLinks_processors]
    simp only [addResult]
    rw [h] at hs
    simpa using Nat.le_of_succ_le hs
  | errRecord url retry rest e h hgt =>
    simp only [addResult]
    rw [h] at hs
    simpa using Nat.le_of_succ_le hs
  | errRetry url retry rest h hle now =>
    rw [queueToProcess_processors]
    rw [h] at hs
    simpa using Nat.le_of_succ_le hs
  | dropped url retry rest h =>
    rw [h] at hs
    simpa using Nat.le_of_succ_le hs
  | dispatch p h2 hcap hpop =>
    simpa using hcap

/-- C6 (amended): provided `worker_pool_size ≥ 1`, the number of in-flight
worker handles never exceeds `worker_pool_size` in any reachable engine state:
the refill loop dispatches only while `has_process_capacity` holds. (For
`worker_pool_size = 0` the unconditional initial dispatch already exceeds the
bound — `c6_pool_zero_cex`.) -/
theorem c6_inflight_bounded (cfg : EngineCfg) (root : String) (s : EState)
    (hpool : 1 ≤ cfg.workerPoolSize) (h : EngineReachable cfg root s) :
    s.processors.length ≤ cfg.workerPoolSize := by
  induction h with
  | refl => simpa [engineInit] using hpool
  | tail _ hstep ih => exact estep_processors_bound hstep ih

/-- Witness for `c6_inflight_bounded` at the initial state of a pool-1 trace. -/
theorem c6_inflight_bounded_witness :
    (1 : Nat) ≤ 1 ∧ EngineReachable ⟨3, 1, 250⟩ "http://x" (engineInit "http://x") ∧
    (engineInit "http://x").processors.length ≤ 1 :=
  ⟨Nat.le_refl 1, Relation.ReflTransGen.refl,
   c6_inflight_bounded ⟨3, 1, 250⟩ "http://x" (engineInit "http://x") (Nat.le_refl 1)
     Relation.ReflTransGen.refl⟩

theorem rendRun_nil (fuel : Nat) (lm : LinkMap) (v : String → Option Int) :
    rendRun fuel lm ⟨[], v⟩ = some [] := by
  cases fuel <;> simp [rendRun, rendStep]

/-- C10: a URL that is not a key of the map is always emitted as a leaf: the
step that visits it pushes no children and attaches no error annotation
(whatever its marker); in particular when the map has no entry for the root,
`to_tree` is exactly the root line `root ++ "\n"`. -/
theorem c10_unknown_url_leaf :
    (∀ (lm : LinkMap) (s : RState) (it : RItem) (rest : List RItem),
      s.dfs = it :: rest → alLookup lm.map it.url = none →
      ∃ line v2, rendStep lm s = some (line, ⟨rest, v2⟩) ∧
        line.children = [] ∧ line.error = "") ∧
    (∀ (lm : LinkMap) (fuel : Nat), 1 ≤ fuel → alLookup lm.map lm.root = none →
      toTreeStr fuel lm = some (lm.root ++ "\n")) := by
  constructor
  · intro lm s it rest hs hlook
    obtain ⟨dfs, visited⟩ := s
    simp only at hs
    subst hs
    by_cases hp : it.url ∈ it.parents
    · refine ⟨⟨getIndent it.level it.active (decide (it.level ≤ getNextLevel rest)),
        it.url, it.level, " ⟳", errText lm " ⟳" it.url, []⟩,
        cmDecrement visited it.url, ?_, rfl, ?_⟩
      · simp [rendStep, hp]
      · simp [errText]
    · by_cases hq : cmIsQueued (cmDecrement visited it.url) it.url
      · refine ⟨⟨getIndent it.level it.active (decide (it.level ≤ getNextLevel rest)),
          it.url, it.level, " 🔗", errText lm " 🔗" it.url, []⟩,
          cmDecrement visited it.url, ?_, rfl, ?_⟩
        · simp [rendStep, hp, hq]
        · simp [errText]
      · refine ⟨⟨getIndent it.level it.active (decide (it.level ≤ getNextLevel rest)),
          it.url, it.level, "", errText lm "" it.url, []⟩,
          cmProcessed (cmDecrement visited it.url) it.url, ?_, rfl, ?_⟩
        · simp [rendStep, hp, hq, hlook]
        · simp [errText, hlook]
  · intro lm fuel hfuel hroot
    obtain ⟨fuel, rfl⟩ : ∃ f, fuel = f + 1 := ⟨fuel - 1, by omega⟩
    have hstep : rendStep lm (rendInit lm) =
        some (⟨"", lm.root, 0, "", "", []⟩,
          ⟨[], cmProcessed (cmDecrement (fun _ => none) lm.root) lm.root⟩) := by
      have hq : cmIsQueued (cmDecrement (fun _ => none) lm.root) lm.root = false := by
        simp [cmIsQueued, cmDecrement]
      simp [rendStep, rendInit, hq, hroot, errText, getIndent]
    unfold toTreeStr
    rw [show rendRun (fuel + 1) lm (rendInit lm) =
        (rendRun fuel lm ⟨[], cmProcessed (cmDecrement (fun _ => none) lm.root) lm.root⟩).map
          (fun ls => ⟨"", lm.root, 0, "", "", []⟩ :: ls) from by
      rw [rendRun, hstep]]
    rw [rendRun_nil]
    simp [String.join]

/-- Witness for `c10_unknown_url_leaf`: a map whose only key is `"r"` with
value `Links ["z"]`; the URL `"z"` has no entry and its visit emits a leaf
with no annotation, and a map with no entry for its root `"q"` renders as the
single line `"q\n"`. -/
theorem c10_unknown_url_leaf_witness :
    (∃ line v2,
      rendStep ⟨"r", [("r", LinkMapValue.Links ["z"])]⟩
        ⟨[⟨"z", 1, [], ["r"]⟩], fun _ => none⟩ = some (line, ⟨[], v2⟩) ∧
      line.children = [] ∧ line.error = "") ∧
    toTreeStr 5 ⟨"q", [("r", LinkMapValue.Links ["z"])]⟩ = some ("q" ++ "\n") :=
  ⟨c10_unknown_url_leaf.1 ⟨"r", [("r", LinkMapValue.Links ["z"])]⟩
      ⟨[⟨"z", 1, [], ["r"]⟩], fun _ => none⟩ ⟨"z", 1, [], ["r"]⟩ [] rfl (by decide),
   c10_unknown_url_leaf.2 ⟨"q", [("r", LinkMapValue.Links ["z"])]⟩ 5 (by decide) (by decide)⟩

theorem multU_cons (u : String) (it : RItem) (rest : List RItem) :
    multU u (it :: rest) = multU u rest + (if it.url == u then 1 else 0) :=
  List.countP_cons _ _ _

theorem multU_append_map (u : String) (lvl : Int) (act : List Bool) (par : List String)
    (links : List String) (rest : List RItem) :
    multU u ((links.map (fun l => (⟨l, lvl, act, par⟩ : RItem))) ++ rest) =
      occS u links + multU u rest := by
  simp only [multU, occS, List.countP_append, List.countP_map]
  rfl

/-- The net effect of the child-pushing fold of `rendStep`: the stack gains
the frames of `ls` reversed (so the original order pops first) and each
pushed URL's count rises by its number of occurrences. -/
theorem pushFold (lvl : Int) (act : List Bool) (par : List String) :
    ∀ (ls : List String) (st : List RItem) (v : String → Option Int),
      (ls.foldl (fun (acc : List RItem × (String → Option Int)) link =>
          (⟨link, lvl, act, par⟩ :: acc.1, cmIncrement acc.2 link)) (st, v)).1 =
        (ls.reverse.map (fun l => (⟨l, lvl, act, par⟩ : RItem))) ++ st ∧
      ∀ u, (ls.foldl (fun (acc : List RItem × (String → Option Int)) link =>
          (⟨link, lvl, act, par⟩ :: acc.1, cmIncrement acc.2 link)) (st, v)).2 u =
        addOcc (v u) (occS u ls) := by
  intro ls
  induction ls with
  | nil =>
    intro st v
    refine ⟨by simp, ?_⟩
    intro u
    simp [occS, addOcc]
  | cons l t ih =>
    intro st v
    rw [List.foldl_cons]
    obtain ⟨ih1, ih2⟩ := ih (⟨l, lvl, act, par⟩ :: st) (cmIncrement v l)
    constructor
    · rw [ih1]
      simp
    · intro u
      rw [ih2 u]
      by_cases hul : l = u
      · subst hul
        have hocc : occS l (l :: t) = occS l t + 1 := by
          simp [occS, List.countP_cons]
        have hinc : cmIncrement v l l = some ((v l).getD 0 + 1) := by
          cases hv : v l <;> simp [cmIncrement, hv]
        rw [hocc, hinc]
        by_cases h0 : occS l t = 0
        · simp [addOcc, h0]
        · simp only [addOcc, if_neg h0, if_neg (by omega : ¬ occS l t + 1 = 0),
            Option.getD_some]
          congr 1
          push_cast
          ring
      · have hocc : occS u (l :: t) = occS u t := by
          simp [occS, List.countP_cons, hul]
        have hinc : cmIncrement v l u = v u := by
          simp [cmIncrement, Ne.symm hul]
        rw [hocc, hinc]

theorem countExpanded_cons (L : TLine) (ls : List TLine) (u : String) :
    countExpanded (L :: ls) u =
      countExpanded ls u + if (L.url == u && L.marker == "") = true then 1 else 0 :=
  List.countP_cons _ _ _

theorem cmDecrement_self (m : String → Option Int) (u : String) :
    cmDecrement m u u = (match m u with
      | some x => some (x - 1)
      | none => none) := by
  simp [cmDecrement]

theorem cmDecrement_other (m : String → Option Int) (u v : String) (h : ¬ v = u) :
    cmDecrement m u v = m v := by
  simp [cmDecrement, h]

theorem cmProcessed_self (m : String → Option Int) (u : String) :
    cmProcessed m u u = (match m u with
      | some _ => some 100
      | none => none) := by
  simp [cmProcessed]

theorem cmProcessed_other (m : String → Option Int) (u v : String) (h : ¬ v = u) :
    cmProcessed m u v = m v := by
  simp [cmProcessed, h]

theorem multU_cons_self (it : RItem) (rest : List RItem) :
    multU it.url (it :: rest) = multU it.url rest + 1 := by
  rw [multU_cons]
  simp

theorem multU_cons_other (u : String) (it : RItem) (rest : List RItem) (h : ¬ u = it.url) :
    multU u (it :: rest) = multU u rest := by
  rw [multU_cons]
  have : (it.url == u) = false := beq_eq_false_iff_ne.mpr (fun hh => h hh.symm)
  simp [this]

/-- In a `cInv` state whose front frame is neither the initial root frame nor
detected as an ancestor of itself, but whose URL lies in `E \ \x7broot\x7d`, the
post-decrement count stays at least 100, so `is_queued_for_processing` holds. -/
theorem cInv_queued_of_expanded {lm : LinkMap} {it : RItem} {rest : List RItem}
    {visited : String → Option Int} {E : String → Prop}
    (hinv : cInv lm ⟨it :: rest, visited⟩ E) (hE : E it.url) (hroot : ¬ it.url = lm.root) :
    cmIsQueued (cmDecrement visited it.url) it.url = true := by
  have h1 := hinv.1 it.url hE hroot
  simp only at h1
  rw [cmIsQueued, cmDecrement_self, h1]
  simp only [multU_cons_self]
  have hlt : (1 : Int) < 100 + ((multU it.url rest : Int) + 1) := by omega
  simpa using hlt

/-- A popped frame either is the initial root frame (then the stack was just
that frame, the count map empty, and `E` empty) or every frame carries the
root among its parents. -/
theorem cInv_cases {lm : LinkMap} {it : RItem} {rest : List RItem}
    {visited : String → Option Int} {E : String → Prop}
    (hinv : cInv lm ⟨it :: rest, visited⟩ E) :
    (it = ⟨lm.root, 0, [], []⟩ ∧ rest = [] ∧ visited = (fun _ => none) ∧ ∀ u, ¬ E u) ∨
    (∀ x ∈ it :: rest, lm.root ∈ x.parents) := by
  rcases hinv.2.2 with ⟨hdfs, hvis, hE⟩ | hc3
  · left
    simp only at hdfs
    injection hdfs with h1 h2
    exact ⟨h1, h2, hvis, hE⟩
  · right
    exact hc3

/-- Popping a frame and decrementing its count preserves `cInv` (with the same
ghost set) as long as all frames carry the root in their parents. -/
theorem cInv_pop {lm : LinkMap} {it : RItem} {rest : List RItem}
    {visited : String → Option Int} {E : String → Prop}
    (hinv : cInv lm ⟨it :: rest, visited⟩ E)
    (hc3 : ∀ x ∈ it :: rest, lm.root ∈ x.parents) :
    cInv lm ⟨rest, cmDecrement visited it.url⟩ E := by
  obtain ⟨h1, h2, _⟩ := hinv
  refine ⟨?_, ?_, Or.inr ?_⟩
  · intro u hE hroot
    have hold := h1 u hE hroot
    simp only at hold ⊢
    by_cases hu : u = it.url
    · subst hu
      rw [cmDecrement_self, hold, multU_cons_self]
      push_cast
      ring_nf
    · rw [cmDecrement_other _ _ _ hu, hold, multU_cons_other u it rest hu]
  · intro u hnE hroot
    have hold := h2 u hnE hroot
    simp only at hold ⊢
    by_cases hu : u = it.url
    · subst hu
      rcases hold with hold | ⟨_, hm⟩
      · left
        rw [cmDecrement_self, hold, multU_cons_self]
        push_cast
        ring_nf
      · rw [multU_cons_self] at hm
        omega
    · rw [cmDecrement_other _ _ _ hu, multU_cons_other u it rest hu] at *
      exact hold
  · intro x hx
    exact hc3 x (List.mem_cons_of_mem it hx)

theorem occS_reverse (u : String) (ls : List String) : occS u ls.reverse = occS u ls :=
  List.countP_reverse _ _

/-- Facts available when a frame reaches the expansion branch (no ancestor
marker, not queued): its URL cannot already be expanded, no other frame for it
is pending, and either this is the initial root pop or the frame is a
non-root URL whose decremented count is exactly 0. -/
theorem cInv_expand_core {lm : LinkMap} {it : RItem} {rest : List RItem}
    {visited : String → Option Int} {E : String → Prop}
    (hinv : cInv lm ⟨it :: rest, visited⟩ E)
    (hp : it.url ∉ it.parents)
    (hq : cmIsQueued (cmDecrement visited it.url) it.url = false) :
    ¬ E it.url ∧ multU it.url rest = 0 ∧
    ((it = ⟨lm.root, 0, [], []⟩ ∧ rest = [] ∧ visited = (fun _ => none) ∧ ∀ u, ¬ E u) ∨
     ((∀ x ∈ it :: rest, lm.root ∈ x.parents) ∧ ¬ it.url = lm.root ∧
      cmDecrement visited it.url it.url = some ((multU it.url rest : Int)))) := by
  rcases cInv_cases hinv with ⟨hit, hrest, hvis, hE⟩ | hc3
  · refine ⟨hE it.url, ?_, Or.inl ⟨hit, hrest, hvis, hE⟩⟩
    subst hrest
    simp [multU]
  · have hroot_ne : ¬ it.url = lm.root := by
      intro h
      exact hp (h ▸ hc3 it (List.mem_cons_self it rest))
    have hnE : ¬ E it.url := by
      intro hE
      rw [cInv_queued_of_expanded hinv hE hroot_ne] at hq
      cases hq
    have hold := hinv.2.1 it.url hnE hroot_ne
    simp only at hold
    rcases hold with hold | ⟨_, hm⟩
    · have hdec : cmDecrement visited it.url it.url =
          some ((multU it.url (it :: rest) : Int) - 1) := by
        rw [cmDecrement_self, hold]
      rw [multU_cons_self] at hdec
      have hm0 : multU it.url rest = 0 := by
        by_contra hne
        rw [cmIsQueued, hdec] at hq
        have : (0 : Int) < (multU it.url rest + 1 : Nat) - 1 := by
          push_cast
          omega
        simp [this] at hq
        exact hne hq
      refine ⟨hnE, hm0, Or.inr ⟨hc3, hroot_ne, ?_⟩⟩
      rw [hdec, hm0]
      norm_num
    · rw [multU_cons_self] at hm
      omega

/-- Expanding a frame with no `Links` entry preserves `cInv`, adding the URL
to the expanded set. -/
theorem cInv_expand_leaf {lm : LinkMap} {it : RItem} {rest : List RItem}
    {visited : String → Option Int} {E : String → Prop}
    (hinv : cInv lm ⟨it :: rest, visited⟩ E)
    (hp : it.url ∉ it.parents)
    (hq : cmIsQueued (cmDecrement visited it.url) it.url = false) :
    cInv lm ⟨rest, cmProcessed (cmDecrement visited it.url) it.url⟩
      (fun u => u = it.url ∨ E u) := by
  obtain ⟨hnE, hm0, hcases⟩ := cInv_expand_core hinv hp hq
  rcases hcases with ⟨hit, hrest, hvis, hE⟩ | ⟨hc3, hroot_ne, hdec⟩
  · subst hrest
    refine ⟨?_, ?_, Or.inr ?_⟩
    · intro u hE' hroot
      rcases hE' with rfl | hEu
      · rw [hit] at hroot
        exact absurd rfl hroot
      · exact absurd hEu (hE u)
    · intro u hnE' hroot
      simp only [not_or] at hnE'
      right
      simp only
      rw [cmProcessed_other _ _ _ hnE'.1, cmDecrement_other _ _ _ hnE'.1, hvis]
      exact ⟨rfl, by simp [multU]⟩
    · intro x hx
      cases hx
  · refine ⟨?_, ?_, Or.inr ?_⟩
    · intro u hE' hroot
      simp only
      rcases hE' with rfl | hEu
      · rw [cmProcessed_self, hdec, hm0]
        norm_num
      · have hu : ¬ u = it.url := fun h => hnE (h ▸ hEu)
        rw [cmProcessed_other _ _ _ hu, cmDecrement_other _ _ _ hu]
        have hold := hinv.1 u hEu hroot
        simp only at hold
        rw [hold, multU_cons_other u it rest hu]
    · intro u hnE' hroot
      simp only [not_or] at hnE'
      simp only
      rw [cmProcessed_other _ _ _ hnE'.1, cmDecrement_other _ _ _ hnE'.1]
      have hold := hinv.2.1 u hnE'.2 hroot
      simp only at hold
      rw [multU_cons_other u it rest hnE'.1] at hold
      exact hold
    · intro x hx
      exact hc3 x (List.mem_cons_of_mem it hx)

theorem addOcc_some (x : Int) (n : Nat) : addOcc (some x) n = some (x + n) := by
  by_cases h : n = 0 <;> simp [addOcc, h]

theorem addOcc_none (n : Nat) : addOcc none n = if n = 0 then none else some (n : Int) := by
  by_cases h : n = 0 <;> simp [addOcc, h]

/-- Expanding a frame whose map entry is `Links links` preserves `cInv`,
adding the URL to the expanded set: the pushed children raise each URL's
count by exactly its number of new frames. -/
theorem cInv_expand_links {lm : LinkMap} {it : RItem} {rest : List RItem}
    {visited : String → Option Int} {E : String → Prop} (links : List String)
    (act : List Bool)
    (hinv : cInv lm ⟨it :: rest, visited⟩ E)
    (hp : it.url ∉ it.parents)
    (hq : cmIsQueued (cmDecrement visited it.url) it.url = false) :
    cInv lm ⟨(links.reverse.foldl
        (fun (acc : List RItem × (String → Option Int)) link =>
          (⟨link, it.level + 1, act, it.parents ++ [it.url]⟩ :: acc.1,
           cmIncrement acc.2 link))
        (rest, cmProcessed (cmDecrement visited it.url) it.url)).1,
      (links.reverse.foldl
        (fun (acc : List RItem × (String → Option Int)) link =>
          (⟨link, it.level + 1, act, it.parents ++ [it.url]⟩ :: acc.1,
           cmIncrement acc.2 link))
        (rest, cmProcessed (cmDecrement visited it.url) it.url)).2⟩
      (fun u => u = it.url ∨ E u) := by
  obtain ⟨hnE, hm0, hcases⟩ := cInv_expand_core hinv hp hq
  obtain ⟨hstack, hcnt⟩ := pushFold (it.level + 1) act (it.parents ++ [it.url])
    links.reverse rest (cmProcessed (cmDecrement visited it.url) it.url)
  rw [List.reverse_reverse] at hstack
  simp only [occS_reverse] at hcnt
  refine ⟨?_, ?_, Or.inr ?_⟩
  · intro u hE' hroot
    simp only
    rw [hcnt u, hstack, multU_append_map]
    rcases hE' with rfl | hEu
    · rcases hcases with ⟨hit, _, _, _⟩ | ⟨_, _, hdec⟩
      · rw [hit] at hroot
        exact absurd rfl hroot
      · have hv2 : cmProcessed (cmDecrement visited it.url) it.url it.url = some 100 := by
          rw [cmProcessed_self, hdec]
        rw [hv2, addOcc_some, hm0]
        push_cast
        ring_nf
    · have hu : ¬ u = it.url := fun h => hnE (h ▸ hEu)
      rw [cmProcessed_other _ _ _ hu, cmDecrement_other _ _ _ hu]
      rcases hcases with ⟨_, _, _, hEall⟩ | ⟨_, _, _⟩
      · exact absurd hEu (hEall u)
      · have hold := hinv.1 u hEu hroot
        simp only at hold
        rw [multU_cons_other u it rest hu] at hold
        rw [hold, addOcc_some]
        push_cast
        ring_nf
  · intro u hnE' hroot
    simp only [not_or] at hnE'
    simp only
    rw [hcnt u, hstack, multU_append_map]
    rw [cmProcessed_other _ _ _ hnE'.1, cmDecrement_other _ _ _ hnE'.1]
    rcases hcases with ⟨_, hrest, hvis, _⟩ | ⟨_, _, _⟩
    · subst hrest
      rw [hvis]
      rw [addOcc_none]
      by_cases hocc : occS u links = 0
      · right
        simp [hocc, multU]
      · left
        rw [if_neg hocc]
        simp [multU]
    · have hold := hinv.2.1 u hnE'.2 hroot
      simp only at hold
      rw [multU_cons_other u it rest hnE'.1] at hold
      rcases hold with hold | ⟨hnone, hm⟩
      · left
        rw [hold, addOcc_some]
        push_cast
        ring_nf
      · rw [hnone, addOcc_none]
        by_cases hocc : occS u links = 0
        · right
          simp [hocc, hm]
        · left
          rw [if_neg hocc]
          rw [hm]
          push_cast
          ring_nf
  · intro x hx
    rw [hstack] at hx
    rcases List.mem_append.mp hx with hx | hx
    · obtain ⟨l, _, rfl⟩ := List.mem_map.mp hx
      rcases hcases with ⟨hit, _, _, _⟩ | ⟨hc3, _, _⟩
      · simp [hit]
      · simp only
        exact List.mem_append_left _ (hc3 it (List.mem_cons_self it rest))
    · rcases hcases with ⟨_, hrest, _, _⟩ | ⟨hc3, _, _⟩
      · subst hrest
        cases hx
      · exact hc3 x (List.mem_cons_of_mem it hx)

/-- Core single-expansion lemma: along any completed run from a `cInv` state,
every URL in the ghost expanded set is never expanded again, and any URL is
expanded at most once. -/
theorem rendRun_expansion (lm : LinkMap) :
    ∀ (fuel : Nat) (s : RState) (E : String → Prop) (lines : List TLine),
      cInv lm s E → rendRun fuel lm s = some lines →
      ∀ u, (E u → countExpanded lines u = 0) ∧ countExpanded lines u ≤ 1 := by
  intro fuel
  induction fuel with
  | zero =>
    intro s E lines hinv hrun u
    cases hdfs : s.dfs with
    | nil =>
      rw [rendRun, hdfs] at hrun
      injection hrun with hrun
      subst hrun
      simp [countExpanded]
    | cons it rest =>
      rw [rendRun, hdfs] at hrun
      cases hrun
  | succ fuel ih =>
    intro s E lines hinv hrun
    obtain ⟨dfs, visited⟩ := s
    cases dfs with
    | nil =>
      simp only [rendRun, rendStep] at hrun
      injection hrun with hrun
      subst hrun
      intro u
      simp [countExpanded]
    | cons it rest =>
      rw [rendRun] at hrun
      by_cases hp : it.url ∈ it.parents
      · simp only [rendStep, if_pos hp] at hrun
        rcases Option.map_eq_some'.mp hrun with ⟨ls, hls, hlines⟩
        subst hlines
        have hc3 : ∀ x ∈ it :: rest, lm.root ∈ x.parents := by
          rcases cInv_cases hinv with ⟨hit, _, _, _⟩ | hc3
          · rw [hit] at hp
            simp at hp
          · exact hc3
        have hIH := ih ⟨rest, cmDecrement visited it.url⟩ E ls (cInv_pop hinv hc3) hls
        intro u
        rw [countExpanded_cons]
        have hm : (((" ⟳" : String) == "")) = false := by decide
        simp only [hm, Bool.and_false, Bool.false_eq_true, if_false, Nat.add_zero]
        exact hIH u
      · cases hq : cmIsQueued (cmDecrement visited it.url) it.url with
        | true =>
          simp only [rendStep, if_neg hp, hq, if_pos] at hrun
          rcases Option.map_eq_some'.mp hrun with ⟨ls, hls, hlines⟩
          subst hlines
          have hc3 : ∀ x ∈ it :: rest, lm.root ∈ x.parents := by
            rcases cInv_cases hinv with ⟨hit, _, hvis, _⟩ | hc3
            · rw [hvis] at hq
              have : cmIsQueued (cmDecrement (fun _ => none) it.url) it.url = false := by
                simp [cmIsQueued, cmDecrement]
              rw [this] at hq
              cases hq
            · exact hc3
          have hIH := ih ⟨rest, cmDecrement visited it.url⟩ E ls (cInv_pop hinv hc3) hls
          intro u
          rw [countExpanded_cons]
          have hm : (((" 🔗" : String) == "")) = false := by decide
          simp only [hm, Bool.and_false, Bool.false_eq_true, if_false, Nat.add_zero]
          exact hIH u
        | false =>
          obtain ⟨hnE, hm0, _⟩ := cInv_expand_core hinv hp hq
          cases hlv : alLookup lm.map it.url with
          | some v =>
            cases v with
            | Links links =>
              simp only [rendStep, if_neg hp, hq, Bool.false_eq_true, if_false, hlv] at hrun
              rcases Option.map_eq_some'.mp hrun with ⟨ls, hls, hlines⟩
              subst hlines
              have hIH := ih _ (fun u => u = it.url ∨ E u) ls
                (cInv_expand_links links _ hinv hp hq) hls
              intro u
              rw [countExpanded_cons]
              by_cases hu : u = it.url
              · subst hu
                have hpred : ((it.url == it.url) && (("" : String) == "")) = true := by simp
                simp only [hpred, if_true]
                have h0 := (hIH it.url).1 (Or.inl rfl)
                rw [h0]
                exact ⟨fun hE => absurd hE hnE, by omega⟩
              · have hpred : ((it.url == u) && (("" : String) == "")) = false := by
                  have : (it.url == u) = false :=
                    beq_eq_false_iff_ne.mpr (fun hh => hu hh.symm)
                  simp [this]
                simp only [hpred, Bool.false_eq_true, if_false, Nat.add_zero]
                refine ⟨fun hE => (hIH u).1 (Or.inr hE), (hIH u).2⟩
            | Error e =>
              simp only [rendStep, if_neg hp, hq, Bool.false_eq_true, if_false, hlv] at hrun
              rcases Option.map_eq_some'.mp hrun with ⟨ls, hls, hlines⟩
              subst hlines
              have hIH := ih ⟨rest, cmProcessed (cmDecrement visited it.url) it.url⟩
                (fun u => u = it.url ∨ E u) ls (cInv_expand_leaf hinv hp hq) hls
              intro u
              rw [countExpanded_cons]
              by_cases hu : u = it.url
              · subst hu
                have hpred : ((it.url == it.url) && (("" : String) == "")) = true := by simp
                simp only [hpred, if_true]
                have h0 := (hIH it.url).1 (Or.inl rfl)
                rw [h0]
                exact ⟨fun hE => absurd hE hnE, by omega⟩
              · have hpred : ((it.url == u) && (("" : String) == "")) = false := by
                  have : (it.url == u) = false :=
                    beq_eq_false_iff_ne.mpr (fun hh => hu hh.symm)
                  simp [this]
                simp only [hpred, Bool.false_eq_true, if_false, Nat.add_zero]
                refine ⟨fun hE => (hIH u).1 (Or.inr hE), (hIH u).2⟩
          | none =>
            simp only [rendStep, if_neg hp, hq, Bool.false_eq_true, if_false, hlv] at hrun
            rcases Option.map_eq_some'.mp hrun with ⟨ls, hls, hlines⟩
            subst hlines
            have hIH := ih ⟨rest, cmProcessed (cmDecrement visited it.url) it.url⟩
              (fun u => u = it.url ∨ E u) ls (cInv_expand_leaf hinv hp hq) hls
            intro u
            rw [countExpanded_cons]
            by_cases hu : u = it.url
            · subst hu
              have hpred : ((it.url == it.url) && (("" : String) == "")) = true := by simp
              simp only [hpred, if_true]
              have h0 := (hIH it.url).1 (Or.inl rfl)
              rw [h0]
              exact ⟨fun hE => absurd hE hnE, by omega⟩
            · have hpred : ((it.url == u) && (("" : String) == "")) = false := by
                have : (it.url == u) = false :=
                  beq_eq_false_iff_ne.mpr (fun hh => hu hh.symm)
                simp [this]
              simp only [hpred, Bool.false_eq_true, if_false, Nat.add_zero]
              refine ⟨fun hE => (hIH u).1 (Or.inr hE), (hIH u).2⟩

theorem rendRun_markers (lm : LinkMap) :
    ∀ (fuel : Nat) (s : RState) (lines : List TLine),
      rendRun fuel lm s = some lines →
      ∀ L ∈ lines, L.marker ≠ "" →
        L.children = [] ∧ (L.marker = " ⟳" ∨ L.marker = " 🔗") := by
  intro fuel
  induction fuel with
  | zero =>
    intro s lines hrun L hL hm
    cases hdfs : s.dfs with
    | nil =>
      rw [rendRun, hdfs] at hrun
      injection hrun with hrun
      subst hrun
      cases hL
    | cons it rest =>
      rw [rendRun, hdfs] at hrun
      cases hrun
  | succ fuel ih =>
    intro s lines hrun L hL hm
    obtain ⟨dfs, visited⟩ := s
    cases dfs with
    | nil =>
      simp only [rendRun, rendStep] at hrun
      injection hrun with hrun
      subst hrun
      cases hL
    | cons it rest =>
      rw [rendRun] at hrun
      by_cases hp : it.url ∈ it.parents
      · simp only [rendStep, if_pos hp] at hrun
        rcases Option.map_eq_some'.mp hrun with ⟨ls, hls, hlines⟩
        subst hlines
        rcases List.mem_cons.mp hL with rfl | hL'
        · exact ⟨rfl, Or.inl rfl⟩
        · exact ih _ ls hls L hL' hm
      · cases hq : cmIsQueued (cmDecrement visited it.url) it.url with
        | true =>
          simp only [rendStep, if_neg hp, hq, if_pos] at hrun
          rcases Option.map_eq_some'.mp hrun with ⟨ls, hls, hlines⟩
          subst hlines
          rcases List.mem_cons.mp hL with rfl | hL'
          · exact ⟨rfl, Or.inr rfl⟩
          · exact ih _ ls hls L hL' hm
        | false =>
          cases hlv : alLookup lm.map it.url with
          | some v =>
            cases v with
            | Links links =>
              simp only [rendStep, if_neg hp, hq, Bool.false_eq_true, if_false, hlv] at hrun
              rcases Option.map_eq_some'.mp hrun with ⟨ls, hls, hlines⟩
              subst hlines
              rcases List.mem_cons.mp hL with rfl | hL'
              · exact absurd rfl hm
              · exact ih _ ls hls L hL' hm
            | Error e =>
              simp only [rendStep, if_neg hp, hq, Bool.false_eq_true, if_false, hlv] at hrun
              rcases Option.map_eq_some'.mp hrun with ⟨ls, hls, hlines⟩
              subst hlines
              rcases List.mem_cons.mp hL with rfl | hL'
              · exact absurd rfl hm
              · exact ih _ ls hls L hL' hm
          | none =>
            simp only [rendStep, if_neg hp, hq, Bool.false_eq_true, if_false, hlv] at hrun
            rcases Option.map_eq_some'.mp hrun with ⟨ls, hls, hlines⟩
            subst hlines
            rcases List.mem_cons.mp hL with rfl | hL'
            · exact absurd rfl hm
            · exact ih _ ls hls L hL' hm

/-- C9 (amended): over any completed rendering run, each URL is *expanded at
most once* — but not necessarily at its first or shallowest occurrence: the
expanded occurrence is the one popped while no other occurrence is pending on
the stack (`c9_first_shallowest_cex`). Every non-expanded occurrence is
emitted as a leaf (no children) marked `" ⟳"` or `" 🔗"`; once a URL has been
expanded, every later occurrence is such a leaf. -/
theorem c9_single_expansion (lm : LinkMap) (fuel : Nat) (lines : List TLine)
    (h : rendRun fuel lm (rendInit lm) = some lines) :
    (∀ u, countExpanded lines u ≤ 1) ∧
    (∀ L ∈ lines, L.marker ≠ "" →
      L.children = [] ∧ (L.marker = " ⟳" ∨ L.marker = " 🔗")) := by
  constructor
  · intro u
    refine (rendRun_expansion lm fuel (rendInit lm) (fun _ => False) lines ?_ h u).2
    refine ⟨?_, ?_, Or.inl ⟨rfl, rfl, fun _ => not_false⟩⟩
    · intro v hF
      cases hF
    · intro v _ hroot
      right
      refine ⟨rfl, ?_⟩
      have : (lm.root == v) = false := beq_eq_false_iff_ne.mpr (Ne.symm hroot)
      simp [rendInit, multU, this]
  · exact rendRun_markers lm fuel (rendInit lm) lines h

/-- Witness for `c9_single_expansion` on the concrete map `r → [s]`. -/
theorem c9_single_expansion_witness :
    ∃ lines, rendRun 5 c9WitnessMap (rendInit c9WitnessMap) = some lines ∧
      (∀ u, countExpanded lines u ≤ 1) ∧
      (∀ L ∈ lines, L.marker ≠ "" →
        L.children = [] ∧ (L.marker = " ⟳" ∨ L.marker = " 🔗")) := by
  have h : rendRun 5 c9WitnessMap (rendInit c9WitnessMap) =
      some [⟨"", "r", 0, "", "", ["s"]⟩, ⟨"└──", "s", 1, "", "", []⟩] := by decide
  exact ⟨_, h, (c9_single_expansion c9WitnessMap 5 _ h).1,
    (c9_single_expansion c9WitnessMap 5 _ h).2⟩

/-- C9 counterexample: in the rendering of `c9CexMap`, the URL `b` occurs
first (traversal index 2, depth 2) as a `" 🔗"` leaf and is *expanded later*
(index 6, with child `c`) — so expansion is not at the first occurrence and
an occurrence after the earlier one is still expanded; and the URL `u` is
expanded at depth 3 (index 4, child `w`) while its *shallower* occurrence at
depth 2 (index 9) is the `" 🔗"` leaf — so the shallowest occurrence does not
win either. -/
theorem c9_first_shallowest_cex :
    (((rendRun 20 c9CexMap (rendInit c9CexMap)).getD []).get? 2).map
        (fun L => (L.url, L.level, L.marker, L.children)) = some ("b", 2, " 🔗", []) ∧
    (((rendRun 20 c9CexMap (rendInit c9CexMap)).getD []).get? 6).map
        (fun L => (L.url, L.level, L.marker, L.children)) = some ("b", 1, "", ["c"]) ∧
    (((rendRun 20 c9CexMap (rendInit c9CexMap)).getD []).get? 4).map
        (fun L => (L.url, L.level, L.marker, L.children)) = some ("u", 3, "", ["w"]) ∧
    (((rendRun 20 c9CexMap (rendInit c9CexMap)).getD []).get? 9).map
        (fun L => (L.url, L.level, L.marker, L.children)) = some ("u", 2, " 🔗", []) := by
  refine ⟨by decide, by decide, by decide, by decide⟩
